import Mathlib

/-!
# Aligned Table Engine: label-aligned arithmetic and missing-value semantics

A shallow embedding of the labeled-container operations exercised by the
notebooks (Series/DataFrame alignment under addition, `dropna`, `rank`,
null-aware reductions, hierarchical-index lookup, level swap, CSV round
trip, column assignment, `where`/`mask`).  The underlying dataframe
library is an external collaborator of this repository, so each operation
is modelled from the specification's contract; the model is executable
and every property below is proved against it.
-/

/-- A cell of a numeric Labeled Vector: `none` is the Missing marker. -/
abbrev Cell := Option Int

/-- Modelled from the spec: a Labeled Vector ("Series") over numeric data —
an ordered sequence of cells paired 1:1 with a Label Sequence (labels are
`Nat` keys; they need not be unique). -/
structure Series where
  entries : List (Nat × Cell)
deriving DecidableEq

/-- The Label Sequence of a Labeled Vector. -/
def Series.labels (s : Series) : List Nat :=
  s.entries.map Prod.fst

/-- First-match label lookup on an association list of labeled cells. -/
def lookupCell : List (Nat × Cell) → Nat → Option Cell
  | [], _ => none
  | e :: es, ℓ => if e.1 = ℓ then some e.2 else lookupCell es ℓ

/-- Label lookup: `none` when the label is absent from the vector,
`some c` with the stored cell (possibly Missing) otherwise. -/
def Series.get (s : Series) (ℓ : Nat) : Option Cell :=
  lookupCell s.entries ℓ

/-- Sorted union of two label sets, as an ascending duplicate-free list. -/
def sortedUnion (a b : List Nat) : List Nat :=
  (a.toFinset ∪ b.toFinset).sort (· ≤ ·)

/-- A binary operator lifted to cells: Missing on either side propagates
to a Missing result. -/
def liftOp (f : Int → Int → Int) : Cell → Cell → Cell
  | some x, some y => some (f x y)
  | _, _ => none

/-- Modelled from the spec: the default aligned combination `A ⊕ B` of two
Labeled Vectors.  The result's Label Sequence is the sorted union of the
two label sets; a label present in both sides combines the two cells
under the Missing-propagating lift of `⊕`, and a label present in only
one side yields the Missing marker. -/
def Series.combine (f : Int → Int → Int) (A B : Series) : Series :=
  ⟨(sortedUnion A.labels B.labels).map fun ℓ =>
    (ℓ, match A.get ℓ, B.get ℓ with
        | some a, some b => liftOp f a b
        | _, _ => none)⟩

/-- Modelled from the spec: the `fill_value` entry point (`A.add(B,
fill_value)`).  Before combining, a label missing from exactly one side is
substituted with `fill` on that side only; cells already present — even
Missing data cells — are left as they are and combined under the
Missing-propagating lift. -/
def Series.combineFill (f : Int → Int → Int) (fill : Int) (A B : Series) : Series :=
  ⟨(sortedUnion A.labels B.labels).map fun ℓ =>
    (ℓ, match A.get ℓ, B.get ℓ with
        | some a, some b => liftOp f a b
        | some a, none => liftOp f a (some fill)
        | none, some b => liftOp f (some fill) b
        | none, none => none)⟩

theorem mem_sortedUnion (a b : List Nat) (x : Nat) :
    x ∈ sortedUnion a b ↔ x ∈ a ∨ x ∈ b := by
  simp [sortedUnion, Finset.mem_sort, List.mem_toFinset]

theorem sortedUnion_sorted (a b : List Nat) :
    (sortedUnion a b).Sorted (· ≤ ·) :=
  Finset.sort_sorted _ _

theorem sortedUnion_nodup (a b : List Nat) :
    (sortedUnion a b).Nodup :=
  Finset.sort_nodup _ _

theorem lookupCell_map_graph (g : Nat → Cell) (l : List Nat) (x : Nat) :
    lookupCell (l.map fun ℓ => (ℓ, g ℓ)) x =
      if x ∈ l then some (g x) else none := by
  induction l with
  | nil => rfl
  | cons y ys ih =>
    by_cases hxy : y = x
    · subst hxy
      simp [lookupCell]
    · simp [lookupCell, hxy, Ne.symm hxy, ih]

theorem lookupCell_isSome_iff (es : List (Nat × Cell)) (ℓ : Nat) :
    (lookupCell es ℓ).isSome ↔ ℓ ∈ es.map Prod.fst := by
  induction es with
  | nil => simp [lookupCell]
  | cons e es ih =>
    by_cases h : e.1 = ℓ
    · simp [lookupCell, h]
    · simp [lookupCell, h, ih, Ne.symm h]

theorem Series.get_mem_labels {s : Series} {ℓ : Nat} {c : Cell}
    (h : s.get ℓ = some c) : ℓ ∈ s.labels := by
  have := (lookupCell_isSome_iff s.entries ℓ).mp (by simp [Series.get] at h ⊢; simp [h])
  exact this

theorem Series.get_none_not_mem {s : Series} {ℓ : Nat}
    (h : s.get ℓ = none) : ℓ ∉ s.labels := by
  intro hmem
  have := (lookupCell_isSome_iff s.entries ℓ).mpr hmem
  rw [Series.get] at h
  rw [h] at this
  exact Bool.noConfusion this

theorem map_fst_graph (g : Nat → Cell) (l : List Nat) :
    (l.map fun ℓ => (ℓ, g ℓ)).map Prod.fst = l := by
  induction l with
  | nil => rfl
  | cons x xs ih => simp [ih]

theorem Series.combine_labels (f : Int → Int → Int) (A B : Series) :
    (A.combine f B).labels = sortedUnion A.labels B.labels :=
  map_fst_graph _ _

theorem Series.combine_get (f : Int → Int → Int) (A B : Series) (ℓ : Nat) :
    (A.combine f B).get ℓ =
      if ℓ ∈ A.labels ∨ ℓ ∈ B.labels then
        some (match A.get ℓ, B.get ℓ with
              | some a, some b => liftOp f a b
              | _, _ => none)
      else none := by
  rw [Series.combine, Series.get]
  rw [lookupCell_map_graph]
  simp only [mem_sortedUnion]

theorem Series.combineFill_get (f : Int → Int → Int) (fill : Int)
    (A B : Series) (ℓ : Nat) :
    (A.combineFill f fill B).get ℓ =
      if ℓ ∈ A.labels ∨ ℓ ∈ B.labels then
        some (match A.get ℓ, B.get ℓ with
              | some a, some b => liftOp f a b
              | some a, none => liftOp f a (some fill)
              | none, some b => liftOp f (some fill) b
              | none, none => none)
      else none := by
  rw [Series.combineFill, Series.get]
  rw [lookupCell_map_graph]
  simp only [mem_sortedUnion]

/-- C1: for every pair of Labeled Vectors A and B and binary operator ⊕,
the default aligned combination has as Label Sequence the sorted union of
A's and B's labels; every label present in both vectors carries
`A[ℓ] ⊕ B[ℓ]` (under Missing-propagating lifting), and every label
present in exactly one of the two carries the Missing marker. -/
theorem C1_aligned_combine (f : Int → Int → Int) (A B : Series) (ℓ : Nat) :
    ((A.combine f B).labels.Sorted (· ≤ ·) ∧ (A.combine f B).labels.Nodup ∧
      (∀ x, x ∈ (A.combine f B).labels ↔ x ∈ A.labels ∨ x ∈ B.labels)) ∧
    (∀ a b, A.get ℓ = some a → B.get ℓ = some b →
      (A.combine f B).get ℓ = some (liftOp f a b)) ∧
    (∀ a, A.get ℓ = some a → B.get ℓ = none →
      (A.combine f B).get ℓ = some none) ∧
    (∀ b, A.get ℓ = none → B.get ℓ = some b →
      (A.combine f B).get ℓ = some none) := by
  refine ⟨⟨?_, ?_, ?_⟩, ?_, ?_, ?_⟩
  · rw [Series.combine_labels]; exact sortedUnion_sorted _ _
  · rw [Series.combine_labels]; exact sortedUnion_nodup _ _
  · intro x; rw [Series.combine_labels]; exact mem_sortedUnion _ _ x
  · intro a b ha hb
    rw [Series.combine_get, if_pos (Or.inl (Series.get_mem_labels ha)), ha, hb]
  · intro a ha hb
    rw [Series.combine_get, if_pos (Or.inl (Series.get_mem_labels ha)), ha, hb]
  · intro b ha hb
    rw [Series.combine_get, if_pos (Or.inr (Series.get_mem_labels hb)), ha, hb]

/-- Witness for C1 on the concrete vectors `{1 ↦ 2, 3 ↦ 5}` and
`{3 ↦ 4, 7 ↦ Missing}`: the shared label 3 carries 5 + 4 and the
exclusive label 1 carries Missing. -/
theorem C1_aligned_combine_witness :
    (Series.combine (· + ·) ⟨[(1, some 2), (3, some 5)]⟩
        ⟨[(3, some 4), (7, none)]⟩).get 3 = some (some 9) ∧
    (Series.combine (· + ·) ⟨[(1, some 2), (3, some 5)]⟩
        ⟨[(3, some 4), (7, none)]⟩).get 1 = some none := by
  constructor
  · exact (C1_aligned_combine (· + ·) _ _ 3).2.1 (some 5) (some 4) rfl rfl
  · exact (C1_aligned_combine (· + ·) _ _ 1).2.2.1 (some 2) rfl rfl

/-- C2: the `fill_value` entry point substitutes `fill` for a label
missing from exactly one side before combining, leaves genuinely Missing
data cells Missing, and with `fill_value = 0` under addition yields A's
value on A-exclusive labels, B's value on B-exclusive labels, and
`A + B` on shared labels. -/
theorem C2_fill_value_combine (f : Int → Int → Int) (fill : Int)
    (A B : Series) (ℓ : Nat) :
    (∀ a, A.get ℓ = some a → B.get ℓ = none →
      (A.combineFill f fill B).get ℓ = some (liftOp f a (some fill))) ∧
    (∀ b, A.get ℓ = none → B.get ℓ = some b →
      (A.combineFill f fill B).get ℓ = some (liftOp f (some fill) b)) ∧
    (∀ a b, A.get ℓ = some a → B.get ℓ = some b →
      (A.combineFill f fill B).get ℓ = some (liftOp f a b)) ∧
    (∀ x, A.get ℓ = some (some x) → B.get ℓ = none →
      (A.combineFill (· + ·) 0 B).get ℓ = some (some x)) ∧
    (∀ y, A.get ℓ = none → B.get ℓ = some (some y) →
      (A.combineFill (· + ·) 0 B).get ℓ = some (some y)) ∧
    (∀ x y, A.get ℓ = some (some x) → B.get ℓ = some (some y) →
      (A.combineFill (· + ·) 0 B).get ℓ = some (some (x + y))) ∧
    (A.get ℓ = some none → B.get ℓ = none →
      (A.combineFill (· + ·) 0 B).get ℓ = some none) := by
  refine ⟨?_, ?_, ?_, ?_, ?_, ?_, ?_⟩
  · intro a ha hb
    rw [Series.combineFill_get, if_pos (Or.inl (Series.get_mem_labels ha)), ha, hb]
  · intro b ha hb
    rw [Series.combineFill_get, if_pos (Or.inr (Series.get_mem_labels hb)), ha, hb]
  · intro a b ha hb
    rw [Series.combineFill_get, if_pos (Or.inl (Series.get_mem_labels ha)), ha, hb]
  · intro x ha hb
    rw [Series.combineFill_get, if_pos (Or.inl (Series.get_mem_labels ha)), ha, hb]
    simp [liftOp]
  · intro y ha hb
    rw [Series.combineFill_get, if_pos (Or.inr (Series.get_mem_labels hb)), ha, hb]
    simp [liftOp]
  · intro x y ha hb
    rw [Series.combineFill_get, if_pos (Or.inl (Series.get_mem_labels ha)), ha, hb]
    simp [liftOp]
  · intro ha hb
    rw [Series.combineFill_get, if_pos (Or.inl (Series.get_mem_labels ha)), ha, hb]
    simp [liftOp]

/-- Witness for C2 on the concrete vectors `{1 ↦ 2, 3 ↦ 5, 9 ↦ Missing}`
and `{3 ↦ 4, 7 ↦ 11}` with `fill_value = 0` under addition. -/
theorem C2_fill_value_combine_witness :
    (Series.combineFill (· + ·) 0 ⟨[(1, some 2), (3, some 5), (9, none)]⟩
        ⟨[(3, some 4), (7, some 11)]⟩).get 1 = some (some 2) ∧
    (Series.combineFill (· + ·) 0 ⟨[(1, some 2), (3, some 5), (9, none)]⟩
        ⟨[(3, some 4), (7, some 11)]⟩).get 7 = some (some 11) ∧
    (Series.combineFill (· + ·) 0 ⟨[(1, some 2), (3, some 5), (9, none)]⟩
        ⟨[(3, some 4), (7, some 11)]⟩).get 3 = some (some 9) ∧
    (Series.combineFill (· + ·) 0 ⟨[(1, some 2), (3, some 5), (9, none)]⟩
        ⟨[(3, some 4), (7, some 11)]⟩).get 9 = some none := by
  refine ⟨?_, ?_, ?_, ?_⟩
  · exact (C2_fill_value_combine (· + ·) 0 _ _ 1).2.2.2.1 2 rfl rfl
  · exact (C2_fill_value_combine (· + ·) 0 _ _ 7).2.2.2.2.1 11 rfl rfl
  · exact (C2_fill_value_combine (· + ·) 0 _ _ 3).2.2.2.2.2.1 5 4 rfl rfl
  · exact (C2_fill_value_combine (· + ·) 0 _ _ 9).2.2.2.2.2.2 rfl rfl

/-- Row-drop policy selector for `dropRows`. -/
inductive DropHow
  | any
  | all
deriving DecidableEq

/-- Modelled from the spec: a Labeled Table ("DataFrame") flattened to its
rows — each row is a row label paired with one cell per column, every row
having one cell per column of the table. -/
structure Frame where
  rows : List (Nat × List Cell)
deriving DecidableEq

/-- The number of non-Missing cells in a row. -/
def rowPresentCount (r : List Cell) : Nat :=
  (r.filter Option.isSome).length

/-- Modelled from the spec: `dropRows(how)` (`dropna`).  `how = any`
removes a row if at least one of its cells is Missing; `how = all`
removes a row only if every cell is Missing. -/
def Frame.dropRows (t : Frame) (how : DropHow) : Frame :=
  ⟨t.rows.filter fun r =>
    match how with
    | .any => r.2.all Option.isSome
    | .all => r.2.any Option.isSome⟩

/-- Modelled from the spec: `dropRows(thresh = k)` (`dropna(thresh)`),
which overrides the `how` policy and keeps exactly the rows with at
least `k` non-Missing cells. -/
def Frame.dropRowsThresh (t : Frame) (k : Nat) : Frame :=
  ⟨t.rows.filter fun r => decide (k ≤ rowPresentCount r.2)⟩

theorem row_all_isSome_iff (r : List Cell) :
    r.all Option.isSome = true ↔ ¬ ∃ c ∈ r, c = none := by
  rw [List.all_eq_true]
  constructor
  · rintro h ⟨c, hc, rfl⟩
    exact Bool.noConfusion (h none hc)
  · intro h c hc
    cases c with
    | none => exact absurd ⟨none, hc, rfl⟩ h
    | some v => rfl

theorem row_any_isSome_iff (r : List Cell) :
    r.any Option.isSome = true ↔ ¬ ∀ c ∈ r, c = none := by
  rw [List.any_eq_true]
  constructor
  · rintro ⟨c, hc, hs⟩ h
    rw [h c hc] at hs
    exact Bool.noConfusion hs
  · intro h
    by_contra hne
    apply h
    intro c hc
    cases c with
    | none => rfl
    | some v => exact absurd ⟨some v, hc, rfl⟩ hne

/-- C3: `dropRows(how = any)` removes exactly the rows containing at
least one Missing cell, `dropRows(how = all)` removes exactly the rows in
which every cell is Missing, and `thresh = k` keeps exactly the rows with
at least k non-Missing cells. -/
theorem C3_dropRows (t : Frame) (r : Nat × List Cell) (k : Nat) :
    (r ∈ (t.dropRows .any).rows ↔ r ∈ t.rows ∧ ¬ ∃ c ∈ r.2, c = none) ∧
    (r ∈ (t.dropRows .all).rows ↔ r ∈ t.rows ∧ ¬ ∀ c ∈ r.2, c = none) ∧
    (r ∈ (t.dropRowsThresh k).rows ↔ r ∈ t.rows ∧ k ≤ rowPresentCount r.2) := by
  refine ⟨?_, ?_, ?_⟩
  · rw [Frame.dropRows]
    simp only [List.mem_filter]
    rw [row_all_isSome_iff]
  · rw [Frame.dropRows]
    simp only [List.mem_filter]
    rw [row_any_isSome_iff]
  · rw [Frame.dropRowsThresh]
    simp only [List.mem_filter, decide_eq_true_eq]

/-- Witness for C3 on a concrete 4-column table with rows having
0, 1, 2, 3 and 4 Missing cells: with `thresh = 3` exactly the rows with
at least 3 non-Missing cells survive. -/
theorem C3_dropRows_witness :
    ((10, [some 1, some 2, some 3, some 4]) ∈
      (Frame.dropRowsThresh ⟨[(10, [some 1, some 2, some 3, some 4]),
        (11, [none, some 2, some 3, some 4]),
        (12, [none, none, some 3, some 4]),
        (13, [none, none, none, some 4]),
        (14, [none, none, none, none])]⟩ 3).rows) ∧
    ((11, [none, some 2, some 3, some 4]) ∈
      (Frame.dropRows ⟨[(10, [some 1, some 2, some 3, some 4]),
        (11, [none, some 2, some 3, some 4]),
        (14, [none, none, none, none])]⟩ .all).rows) := by
  constructor
  · exact (C3_dropRows _ _ 3).2.2.mpr ⟨by decide, by decide⟩
  · exact (C3_dropRows _ _ 0).2.1.mpr ⟨by decide, by decide⟩

/-- Number of values strictly below `v` (the ranks fully beneath `v`'s
tied group). -/
def countBelow (v : Int) (xs : List Int) : Nat :=
  xs.countP fun x => decide (x < v)

/-- Number of values tied with `v` (including `v` itself). -/
def countTied (v : Int) (xs : List Int) : Nat :=
  xs.countP fun x => decide (x = v)

/-- Modelled from the spec: the default (mean-of-ties) rank of the value
`v` among `xs` — the mean of the ranks `v`'s tied group would occupy. -/
def avgRankVal (v : Int) (xs : List Int) : ℚ :=
  (countBelow v xs : ℚ) + ((countTied v xs : ℚ) + 1) / 2

/-- Modelled from the spec: `rank()` with the default tie policy; each
position keeps its place and receives the mean rank of its tied group. -/
def ranksAvg (xs : List Int) : List ℚ :=
  xs.map fun v => avgRankVal v xs

/-- Helper for `ranksFirst`: `all` is the whole column and `seen` the
values strictly before the current position. -/
def ranksFirstAux (all : List Int) : List Int → List Int → List ℚ
  | _, [] => []
  | seen, v :: rest =>
    ((countBelow v all : ℚ) + (countTied v seen : ℚ) + 1) ::
      ranksFirstAux all (seen ++ [v]) rest

/-- Modelled from the spec: `rank(method = FIRST)`; ties receive distinct
consecutive ranks in input order. -/
def ranksFirst (xs : List Int) : List ℚ :=
  ranksFirstAux xs [] xs

/-- The ranks that `v`'s tied group would occupy in the column `xs`. -/
def occupiedRanks (v : Int) (xs : List Int) : List ℚ :=
  (List.range (countTied v xs)).map fun k : Nat => (countBelow v xs : ℚ) + (k : ℚ) + 1

/-- Mean of a list of rationals. -/
def meanQ (l : List ℚ) : ℚ :=
  l.sum / l.length

/-- Modelled from the spec: a Labeled Vector of present (non-Missing)
values, the input of `rank`. -/
structure RSeries where
  entries : List (Nat × Int)
deriving DecidableEq

/-- Label Sequence of a rank input vector. -/
def RSeries.labels (s : RSeries) : List Nat :=
  s.entries.map Prod.fst

/-- Value column of a rank input vector. -/
def RSeries.vals (s : RSeries) : List Int :=
  s.entries.map Prod.snd

/-- Modelled from the spec: `rank()` on a Labeled Vector — a parallel
vector of mean-tie ranks carrying the original labels in order. -/
def RSeries.rankAvg (s : RSeries) : List (Nat × ℚ) :=
  s.labels.zip (ranksAvg s.vals)

/-- Modelled from the spec: `rank(method = FIRST)` on a Labeled Vector. -/
def RSeries.rankFirst (s : RSeries) : List (Nat × ℚ) :=
  s.labels.zip (ranksFirst s.vals)

theorem ranksFirstAux_length (all seen rest : List Int) :
    (ranksFirstAux all seen rest).length = rest.length := by
  induction rest generalizing seen with
  | nil => rfl
  | cons v r ih => simp [ranksFirstAux, ih]

theorem ranksAvg_length (xs : List Int) : (ranksAvg xs).length = xs.length :=
  List.length_map _ _

theorem ranksFirst_length (xs : List Int) : (ranksFirst xs).length = xs.length :=
  ranksFirstAux_length _ _ _

theorem sum_occupied (c : ℚ) (m : Nat) :
    ((List.range m).map fun k : Nat => c + (k : ℚ) + 1).sum
      = m * c + m + m * ((m : ℚ) - 1) / 2 := by
  induction m with
  | zero => simp
  | succ n ih =>
    rw [List.range_succ, List.map_append, List.sum_append, ih]
    simp only [List.map_singleton, List.sum_singleton]
    push_cast
    ring

theorem avgRankVal_eq_mean_occupied (v : Int) (xs : List Int) (hv : v ∈ xs) :
    avgRankVal v xs = meanQ (occupiedRanks v xs) := by
  have hm : 0 < countTied v xs :=
    List.countP_pos_iff.mpr ⟨v, hv, by simp⟩
  have hm' : ((countTied v xs : ℚ)) ≠ 0 := by
    exact_mod_cast hm.ne'
  rw [meanQ, occupiedRanks, sum_occupied, List.length_map, List.length_range,
    avgRankVal]
  field_simp
  ring

/-- C4: `rank` never reorders — both tie policies return a vector carrying
the original labels in order; the default policy assigns every value the
mean of the ranks its tied group would occupy; on `[100, 100, 100]` the
default policy yields `[2.0, 2.0, 2.0]` and `method = FIRST` yields
`[1, 2, 3]` in input order. -/
theorem C4_rank (s : RSeries) :
    (s.rankAvg.map Prod.fst = s.labels ∧ s.rankFirst.map Prod.fst = s.labels) ∧
    (∀ v ∈ s.vals, avgRankVal v s.vals = meanQ (occupiedRanks v s.vals)) ∧
    ranksAvg [100, 100, 100] = [2, 2, 2] ∧
    ranksFirst [100, 100, 100] = [1, 2, 3] := by
  have hlen : s.labels.length = s.vals.length := by
    simp [RSeries.labels, RSeries.vals]
  refine ⟨⟨?_, ?_⟩, ?_, ?_, ?_⟩
  · exact List.map_fst_zip _ _ (by rw [ranksAvg_length, hlen])
  · exact List.map_fst_zip _ _ (by rw [ranksFirst_length, hlen])
  · exact fun v hv => avgRankVal_eq_mean_occupied v s.vals hv
  · norm_num [ranksAvg, avgRankVal, countBelow, countTied, List.countP_cons]
  · norm_num [ranksFirst, ranksFirstAux, avgRankVal, countBelow, countTied,
      List.countP_cons]

/-- Witness for C4 on the concrete vector `[100, 100, 100]`. -/
theorem C4_rank_witness :
    avgRankVal 100 (RSeries.vals ⟨[(0, 100), (1, 100), (2, 100)]⟩)
      = meanQ (occupiedRanks 100 (RSeries.vals ⟨[(0, 100), (1, 100), (2, 100)]⟩)) :=
  (C4_rank ⟨[(0, 100), (1, 100), (2, 100)]⟩).2.1 100 (by decide)

/-- The present (non-Missing) values of a cell column. -/
def presentVals (xs : List Cell) : List Int :=
  xs.filterMap id

/-- Modelled from the spec: the null-aware reduction wrapper shared by
`sum`, `mean`, `cov`, `corr`, …  With `skipna = true` (the default) the
kernel `f` sees only the present values; with `skipna = false` any
Missing operand poisons the whole reduction to Missing. -/
def reduceCells (f : List Int → ℚ) (skipna : Bool) (xs : List Cell) : Option ℚ :=
  if skipna then some (f (presentVals xs))
  else if xs.any Option.isNone then none
  else some (f (presentVals xs))

/-- The sum reduction kernel. -/
def sumKernel (xs : List Int) : ℚ :=
  (xs.map fun v : Int => (v : ℚ)).sum

/-- The mean reduction kernel. -/
def meanKernel (xs : List Int) : ℚ :=
  (xs.map fun v : Int => (v : ℚ)).sum / xs.length

/-- A typed column of a Labeled Table: numeric cells or text cells. -/
inductive Column
  | num (cells : List Cell)
  | txt (cells : List (Option String))
deriving DecidableEq

/-- Modelled from the spec: a Labeled Table as an ordered mapping from
column label to typed column. -/
structure TFrame where
  cols : List (String × Column)
deriving DecidableEq

/-- Modelled from the spec: `DataFrame.mean` — a numeric-only reduction;
non-numeric columns are silently excluded (no error), and each numeric
column is reduced by the null-aware mean. -/
def TFrame.meanCols (skipna : Bool) (t : TFrame) : List (String × Option ℚ) :=
  t.cols.filterMap fun c =>
    match c.2 with
    | .num cells => some (c.1, reduceCells meanKernel skipna cells)
    | .txt _ => none

theorem presentVals_filter (xs : List Cell) :
    presentVals (xs.filter Option.isSome) = presentVals xs := by
  induction xs with
  | nil => rfl
  | cons c cs ih =>
    cases c with
    | none => simpa [presentVals] using ih
    | some v => simpa [presentVals] using ih

/-- C5: every null-aware reduction with `skipna = true` (the default)
skips Missing entries — it reduces exactly the present values and is
unchanged by deleting the Missing cells; with `skipna = false` any
Missing operand poisons the whole reduction to Missing; and `mean`
silently excludes non-numeric columns: its result has an entry for a
label exactly when that label names a numeric column. -/
theorem C5_reductions (f : List Int → ℚ) (xs : List Cell) (t : TFrame)
    (skipna : Bool) (ℓ : String) (r : Option ℚ) :
    (reduceCells f true xs = some (f (presentVals xs))) ∧
    (reduceCells f true (xs.filter Option.isSome) = reduceCells f true xs) ∧
    (none ∈ xs → reduceCells f false xs = none) ∧
    ((ℓ, r) ∈ t.meanCols skipna ↔
      ∃ cells, (ℓ, Column.num cells) ∈ t.cols ∧
        r = reduceCells meanKernel skipna cells) := by
  refine ⟨rfl, ?_, ?_, ?_⟩
  · rw [reduceCells, reduceCells, if_pos rfl, if_pos rfl, presentVals_filter]
  · intro h
    have hany : xs.any Option.isNone = true :=
      List.any_eq_true.mpr ⟨none, h, rfl⟩
    simp [reduceCells, hany]
  · rw [TFrame.meanCols]
    rw [List.mem_filterMap]
    constructor
    · rintro ⟨⟨name, col⟩, hmem, heq⟩
      cases col with
      | num cells =>
        simp only [Option.some_inj, Prod.mk.injEq] at heq
        exact ⟨cells, heq.1 ▸ hmem, heq.2.symm⟩
      | txt cells => exact Option.noConfusion heq
    · rintro ⟨cells, hmem, rfl⟩
      exact ⟨(ℓ, .num cells), hmem, rfl⟩

/-- Witness for C5: a Missing operand poisons `mean(skipna = false)` on a
concrete column, and `mean` of a concrete two-column table carries an
entry for the numeric column (the text column is excluded). -/
theorem C5_reductions_witness :
    reduceCells meanKernel false [some 1, none, some 3] = none ∧
    ("score", reduceCells meanKernel true [some 1, none, some 3]) ∈
      TFrame.meanCols true
        ⟨[("name", Column.txt [some "a"]),
          ("score", Column.num [some 1, none, some 3])]⟩ := by
  constructor
  · exact (C5_reductions meanKernel [some 1, none, some 3] ⟨[]⟩ false "" none).2.2.1
      (by decide)
  · exact (C5_reductions meanKernel []
      ⟨[("name", Column.txt [some "a"]),
        ("score", Column.num [some 1, none, some 3])]⟩ true "score"
      (reduceCells meanKernel true [some 1, none, some 3])).2.2.2.mpr
      ⟨[some 1, none, some 3], by simp, rfl⟩

/-- Modelled from the spec: a table carried by a Composite (hierarchical)
Label Sequence — each row is an ordered tuple of level keys paired with
the row's datum. -/
structure HTable where
  rows : List (List Nat × Int)
deriving DecidableEq

/-- Does the composite key `k` start with the partial key `p`, matching
level by level from the leftmost (outermost) level inward? -/
def keyLeads : List Nat → List Nat → Bool
  | [], _ => true
  | _ :: _, [] => false
  | p :: ps, k :: ks => p == k && keyLeads ps ks

/-- Modelled from the spec: partial-key lookup — a prefix of the
composite key selects all rows whose key starts with that prefix; the
result retains the remaining (unmatched) levels as its own Composite
Label Sequence. -/
def HTable.lookupPartial (t : HTable) (p : List Nat) : HTable :=
  ⟨t.rows.filterMap fun r =>
    if keyLeads p r.1 then some (r.1.drop p.length, r.2) else none⟩

/-- Full-composite-key lookup: the data of all rows labelled `k`. -/
def HTable.lookupFull (t : HTable) (k : List Nat) : List Int :=
  t.rows.filterMap fun r => if r.1 = k then some r.2 else none

theorem keyLeads_iff (p k : List Nat) :
    keyLeads p k = true ↔ ∃ s, k = p ++ s := by
  induction p generalizing k with
  | nil => simp [keyLeads]
  | cons a ps ih =>
    cases k with
    | nil =>
      simp only [keyLeads, List.cons_append]
      constructor
      · intro h; exact Bool.noConfusion h
      · rintro ⟨s, hs⟩; exact List.noConfusion hs
    | cons b ks =>
      rw [keyLeads, Bool.and_eq_true, beq_iff_eq, ih]
      constructor
      · rintro ⟨rfl, s, rfl⟩; exact ⟨s, rfl⟩
      · rintro ⟨s, hs⟩
        rw [List.cons_append] at hs
        injection hs with h1 h2
        exact ⟨h1.symm, s, h2⟩

theorem keyLeads_eq_of_length {p k : List Nat} (h : keyLeads p k = true)
    (hl : k.length = p.length) : k = p := by
  obtain ⟨s, rfl⟩ := (keyLeads_iff p k).mp h
  have hs : s.length = 0 := by
    rw [List.length_append] at hl
    omega
  rw [List.length_eq_zero] at hs
  rw [hs, List.append_nil]

theorem keyLeads_refl (p : List Nat) : keyLeads p p = true :=
  (keyLeads_iff p p).mpr ⟨[], (List.append_nil p).symm⟩

theorem mem_lookupPartial (t : HTable) (p rest : List Nat) (v : Int) :
    (rest, v) ∈ (t.lookupPartial p).rows ↔ (p ++ rest, v) ∈ t.rows := by
  rw [HTable.lookupPartial, List.mem_filterMap]
  constructor
  · rintro ⟨⟨k, w⟩, hmem, heq⟩
    by_cases hk : keyLeads p k = true
    · rw [if_pos hk] at heq
      obtain ⟨s, rfl⟩ := (keyLeads_iff p k).mp hk
      rw [List.drop_left] at heq
      simp only [Option.some_inj, Prod.mk.injEq] at heq
      obtain ⟨rfl, rfl⟩ := heq
      exact hmem
    · rw [if_neg hk] at heq
      exact Option.noConfusion heq
  · intro hmem
    refine ⟨(p ++ rest, v), hmem, ?_⟩
    rw [if_pos ((keyLeads_iff _ _).mpr ⟨rest, rfl⟩), List.drop_left]

theorem lookupPartial_full_aux (rows : List (List Nat × Int)) (p : List Nat)
    (v : Int) (n : Nat) (hlen : ∀ r ∈ rows, r.1.length = n)
    (hnd : (rows.map Prod.fst).Nodup) (hp : p.length = n)
    (hv : (p, v) ∈ rows) :
    rows.filterMap
        (fun r => if keyLeads p r.1 then some (r.1.drop p.length, r.2) else none)
      = [([], v)] := by
  induction rows with
  | nil => cases hv
  | cons r rs ih =>
    rw [List.map_cons, List.nodup_cons] at hnd
    rcases List.mem_cons.mp hv with heq | hmem
    · rw [List.filterMap_cons, ← heq, if_pos (keyLeads_refl p), List.drop_length]
      have hnil : rs.filterMap
          (fun r => if keyLeads p r.1 then some (r.1.drop p.length, r.2) else none)
          = [] := by
        rw [List.filterMap_eq_nil_iff]
        intro a ha
        rw [if_neg]
        intro hk
        have ha1 : a.1 = p := keyLeads_eq_of_length hk
          (by rw [hlen a (List.mem_cons_of_mem r ha), hp])
        apply hnd.1
        have hr1 : r.1 = p := by rw [← heq]
        rw [hr1, ← ha1]
        exact List.mem_map_of_mem Prod.fst ha
      rw [hnil]
    · rw [List.filterMap_cons, if_neg, ih
          (fun x hx => hlen x (List.mem_cons_of_mem r hx)) hnd.2 hmem]
      intro hk
      have : r.1 = p := keyLeads_eq_of_length hk
        (by rw [hlen r (List.mem_cons_self r rs), hp])
      apply hnd.1
      rw [this]
      exact List.mem_map_of_mem Prod.fst hmem

/-- C6: a partial-key lookup by a prefix of the composite key selects
exactly the rows whose composite label starts with that prefix, carrying
the remaining unmatched levels as the result's own Composite Label
Sequence; and on a uniquely-indexed table a full-composite-key lookup
returns exactly one row. -/
theorem C6_partial_lookup (t : HTable) (p rest : List Nat) (v : Int) (n : Nat) :
    ((rest, v) ∈ (t.lookupPartial p).rows ↔ (p ++ rest, v) ∈ t.rows) ∧
    ((∀ r ∈ t.rows, r.1.length = n) → (t.rows.map Prod.fst).Nodup →
      p.length = n → (p, v) ∈ t.rows →
      (t.lookupPartial p).rows = [([], v)]) := by
  refine ⟨mem_lookupPartial t p rest v, ?_⟩
  intro hlen hnd hp hv
  rw [HTable.lookupPartial]
  exact lookupPartial_full_aux t.rows p v n hlen hnd hp hv

/-- Witness for C6 on the concrete two-level table
`{(1,10) ↦ 5, (1,20) ↦ 6, (2,30) ↦ 7}`: partial key `[1]` selects the
row with remaining level `[20]` and datum 6, and the full key `[1, 20]`
returns exactly the one row `([], 6)`. -/
theorem C6_partial_lookup_witness :
    (([20], 6) ∈ (HTable.lookupPartial
      ⟨[([1, 10], 5), ([1, 20], 6), ([2, 30], 7)]⟩ [1]).rows) ∧
    (HTable.lookupPartial
      ⟨[([1, 10], 5), ([1, 20], 6), ([2, 30], 7)]⟩ [1, 20]).rows = [([], 6)] := by
  constructor
  · exact (C6_partial_lookup ⟨[([1, 10], 5), ([1, 20], 6), ([2, 30], 7)]⟩
      [1] [20] 6 2).1.mpr (by decide)
  · exact (C6_partial_lookup ⟨[([1, 10], 5), ([1, 20], 6), ([2, 30], 7)]⟩
      [1, 20] [] 6 2).2 (by decide) (by decide) rfl (by decide)

/-- Exchange the level positions `i` and `j` of a level index. -/
def swapPos (i j t : Nat) : Nat :=
  if t = i then j else if t = j then i else t

/-- Exchange levels `i` and `j` of one composite key. -/
def swapKey (i j : Nat) (k : List Nat) : List Nat :=
  (List.range k.length).map fun t => k.getD (swapPos i j t) 0

/-- Modelled from the spec: `swaplevel` — reorder levels `i` and `j` of
the Composite Label Sequence of every row; the row data are untouched. -/
def HTable.swapLevels (t : HTable) (i j : Nat) : HTable :=
  ⟨t.rows.map fun r => (swapKey i j r.1, r.2)⟩

theorem swapPos_swapPos (i j t : Nat) : swapPos i j (swapPos i j t) = t := by
  unfold swapPos
  split_ifs <;> omega

theorem swapPos_lt {i j t n : Nat} (hi : i < n) (hj : j < n) (ht : t < n) :
    swapPos i j t < n := by
  unfold swapPos
  split_ifs <;> omega

theorem swapKey_length (i j : Nat) (k : List Nat) :
    (swapKey i j k).length = k.length := by
  simp [swapKey]

theorem swapKey_getElem (i j : Nat) (k : List Nat) (t : Nat)
    (ht : t < (swapKey i j k).length) :
    (swapKey i j k)[t] = k.getD (swapPos i j t) 0 := by
  simp [swapKey]

theorem swapKey_swapKey {i j : Nat} {k : List Nat}
    (hi : i < k.length) (hj : j < k.length) :
    swapKey i j (swapKey i j k) = k := by
  apply List.ext_getElem
  · rw [swapKey_length, swapKey_length]
  · intro t h1 h2
    rw [swapKey_getElem]
    have hsp : swapPos i j t < (swapKey i j k).length := by
      rw [swapKey_length]
      exact swapPos_lt hi hj h2
    rw [List.getD_eq_getElem _ _ hsp, swapKey_getElem, swapPos_swapPos,
      List.getD_eq_getElem _ _ h2]

theorem filterMap_swapLevels_aux (rows : List (List Nat × Int))
    (i j n : Nat) (key : List Nat) (hlen : ∀ r ∈ rows, r.1.length = n)
    (hi : i < n) (hj : j < n) (hkey : key.length = n) :
    (rows.map fun r => (swapKey i j r.1, r.2)).filterMap
        (fun r => if r.1 = swapKey i j key then some r.2 else none)
      = rows.filterMap fun r => if r.1 = key then some r.2 else none := by
  induction rows with
  | nil => rfl
  | cons r rs ih =>
    rw [List.map_cons, List.filterMap_cons, List.filterMap_cons]
    have hr : r.1.length = n := hlen r (List.mem_cons_self r rs)
    have hcond : (swapKey i j r.1 = swapKey i j key) ↔ r.1 = key := by
      constructor
      · intro h
        have h2 := congrArg (swapKey i j) h
        rwa [swapKey_swapKey (by omega) (by omega),
          swapKey_swapKey (by omega) (by omega)] at h2
      · intro h; rw [h]
    have ihr := ih fun x hx => hlen x (List.mem_cons_of_mem r hx)
    by_cases h : r.1 = key
    · rw [if_pos (hcond.mpr h), if_pos h, ihr]
    · rw [if_neg (fun hc => h (hcond.mp hc)), if_neg h, ihr]

/-- C7: swapping two levels of a Composite Label Sequence is a pure
relabeling — the data column is unchanged (each row keeps its datum, in
order), and looking up a full key with its levels reordered in the
swapped table returns exactly what the original full key returns in the
original table. -/
theorem C7_swapLevels (t : HTable) (i j n : Nat) (key : List Nat) :
    ((t.swapLevels i j).rows.map Prod.snd = t.rows.map Prod.snd) ∧
    ((∀ r ∈ t.rows, r.1.length = n) → i < n → j < n → key.length = n →
      (t.swapLevels i j).lookupFull (swapKey i j key) = t.lookupFull key) := by
  constructor
  · rw [HTable.swapLevels, List.map_map]
    rfl
  · intro hlen hi hj hkey
    rw [HTable.swapLevels, HTable.lookupFull, HTable.lookupFull]
    exact filterMap_swapLevels_aux t.rows i j n key hlen hi hj hkey

/-- Witness for C7 on the concrete two-level table
`{(1,10) ↦ 5, (2,20) ↦ 7}`: after swapping the two levels, looking up the
reordered key `(20,2)` returns what `(2,20)` returned originally. -/
theorem C7_swapLevels_witness :
    (HTable.swapLevels ⟨[([1, 10], 5), ([2, 20], 7)]⟩ 0 1).lookupFull
        (swapKey 0 1 [2, 20])
      = HTable.lookupFull ⟨[([1, 10], 5), ([2, 20], 7)]⟩ [2, 20] ∧
    HTable.lookupFull ⟨[([1, 10], 5), ([2, 20], 7)]⟩ [2, 20] = [7] := by
  constructor
  · exact (C7_swapLevels ⟨[([1, 10], 5), ([2, 20], 7)]⟩ 0 1 2 [2, 20]).2
      (by decide) (by decide) (by decide) (by decide)
  · decide

/-- A cell of a text-exportable Labeled Table: an integer value, a text
value, or Missing. -/
inductive CVal
  | nat (n : Nat)
  | txt (s : List Char)
  | missing
deriving DecidableEq

/-- The character for a decimal digit. -/
def digitChar (d : Nat) : Char :=
  Char.ofNat (48 + d)

/-- The decimal digit of a digit character. -/
def chDigit (c : Char) : Nat :=
  c.toNat - 48

/-- Decimal rendering of an integer field, most significant digit first. -/
def renderNat (n : Nat) : List Char :=
  if n = 0 then [digitChar 0] else (Nat.digits 10 n).reverse.map digitChar

/-- Decimal parsing of an integer field: succeeds exactly on nonempty
all-digit fields. -/
def parseNatField (cs : List Char) : Option Nat :=
  if cs ≠ [] ∧ cs.all Char.isDigit then
    some (Nat.ofDigits 10 ((cs.map chDigit).reverse))
  else none

/-- Serialize one cell to a text field; Missing is written as the empty
missing-representation. -/
def renderCVal : CVal → List Char
  | .nat n => renderNat n
  | .txt s => s
  | .missing => []

/-- Modelled from the spec: per-field element-kind inference on import —
an empty field is Missing, an all-digit field is read back as integer
(not text), and any other field is text. -/
def parseCVal (cs : List Char) : CVal :=
  match parseNatField cs with
  | some n => .nat n
  | none => if cs = [] then .missing else .txt cs

/-- Modelled from the spec: a Labeled Table at the text-adapter boundary —
column labels and rows of (integer row label, cells). -/
structure CTable where
  colNames : List (List Char)
  rows : List (Nat × List CVal)
deriving DecidableEq

/-- Modelled from the spec: tabular text export (`to_csv` with the index
included): the first record is the header (a blank index-name field, then
the column labels); each further record is the rendered row label
followed by the rendered cells. -/
def toCsv (t : CTable) : List (List (List Char)) :=
  ([] :: t.colNames) :: t.rows.map fun r => renderNat r.1 :: r.2.map renderCVal

/-- Import of one data record: the first field becomes the row label, the
remaining fields get their element kinds inferred. -/
def parseRow (line : List (List Char)) : Option (Nat × List CVal) :=
  match line with
  | [] => none
  | idx :: cells => (parseNatField idx).map fun i => (i, cells.map parseCVal)

/-- Modelled from the spec: tabular text import (`read_csv` with
`index_col` = first column): the first record is the header (its first
field is the index name, the rest are the column labels) and every
further record is one row. -/
def fromCsv (recs : List (List (List Char))) : Option CTable :=
  match recs with
  | [] => none
  | header :: body =>
    match header with
    | [] => none
    | _ :: cols => (body.mapM parseRow).map fun rs => ⟨cols, rs⟩

/-- A cell survives element-kind inference: text must be nonempty and not
look like an integer field. -/
def kindStable : CVal → Bool
  | .txt s => !s.isEmpty && !s.all Char.isDigit
  | _ => true

theorem chDigit_digitChar {d : Nat} (hd : d < 10) :
    chDigit (digitChar d) = d := by
  interval_cases d <;> decide

theorem isDigit_digitChar {d : Nat} (hd : d < 10) :
    (digitChar d).isDigit = true := by
  interval_cases d <;> decide

theorem map_chDigit_digitChar (l : List Nat) (h : ∀ d ∈ l, d < 10) :
    l.map (chDigit ∘ digitChar) = l := by
  induction l with
  | nil => rfl
  | cons d ds ih =>
    rw [List.map_cons, Function.comp_apply,
      chDigit_digitChar (h d (List.mem_cons_self d ds)),
      ih fun x hx => h x (List.mem_cons_of_mem d hx)]

theorem parseNatField_renderNat (n : Nat) :
    parseNatField (renderNat n) = some n := by
  by_cases h0 : n = 0
  · subst h0; decide
  · rw [renderNat, if_neg h0]
    have hdig : ∀ d ∈ Nat.digits 10 n, d < 10 :=
      fun d hd => Nat.digits_lt_base (by norm_num) hd
    have hne : (Nat.digits 10 n).reverse.map digitChar ≠ [] := by
      simp only [ne_eq, List.map_eq_nil_iff, List.reverse_eq_nil_iff]
      exact Nat.digits_ne_nil_iff_ne_zero.mpr h0
    have hall : ((Nat.digits 10 n).reverse.map digitChar).all Char.isDigit = true := by
      rw [List.all_eq_true]
      intro c hc
      rw [List.mem_map] at hc
      obtain ⟨d, hd, rfl⟩ := hc
      exact isDigit_digitChar (hdig d (List.mem_reverse.mp hd))
    rw [parseNatField, if_pos ⟨hne, hall⟩]
    congr 1
    rw [List.map_map, List.map_reverse, List.reverse_reverse,
      map_chDigit_digitChar _ hdig, Nat.ofDigits_digits]

theorem parseCVal_renderCVal {c : CVal} (h : kindStable c = true) :
    parseCVal (renderCVal c) = c := by
  cases c with
  | nat n =>
    rw [renderCVal, parseCVal, parseNatField_renderNat]
  | txt s =>
    rw [kindStable, Bool.and_eq_true] at h
    have hne : s ≠ [] := by
      intro hs
      rw [hs] at h
      exact Bool.noConfusion h.1
    have hdig : ¬(s.all Char.isDigit = true) := by
      intro hs
      rw [hs] at h
      exact Bool.noConfusion h.2
    rw [renderCVal, parseCVal, parseNatField, if_neg (fun hc => hdig hc.2),
      if_neg hne]
  | missing => decide

theorem map_parseCVal_renderCVal (cs : List CVal)
    (h : ∀ c ∈ cs, kindStable c = true) :
    cs.map (parseCVal ∘ renderCVal) = cs := by
  induction cs with
  | nil => rfl
  | cons c cs ih =>
    rw [List.map_cons, Function.comp_apply,
      parseCVal_renderCVal (h c (List.mem_cons_self c cs)),
      ih fun x hx => h x (List.mem_cons_of_mem c hx)]

theorem parseRow_renderRow (r : Nat × List CVal)
    (h : ∀ c ∈ r.2, kindStable c = true) :
    parseRow (renderNat r.1 :: r.2.map renderCVal) = some r := by
  show (parseNatField (renderNat r.1)).map
      (fun i => (i, (r.2.map renderCVal).map parseCVal)) = some r
  rw [parseNatField_renderNat, Option.map_some', List.map_map,
    map_parseCVal_renderCVal r.2 h]

theorem mapM_option_map_id {α β : Type} (f : β → Option α) (g : α → β)
    (l : List α) (h : ∀ a ∈ l, f (g a) = some a) :
    (l.map g).mapM f = some l := by
  induction l with
  | nil => rfl
  | cons a as ih =>
    rw [List.map_cons, List.mapM_cons, h a (List.mem_cons_self a as),
      ih fun x hx => h x (List.mem_cons_of_mem a hx)]
    rfl

/-- C8: exporting a Labeled Table to tabular delimited text and
re-importing it with matching configuration (first column as index, empty
missing-representation) reproduces the original table's values and row
and column labels exactly, provided — the element-kind-inference caveat —
no text cell is empty or all digits (such a cell would be re-imported as
Missing or as integer instead of text). -/
theorem C8_csv_round_trip (t : CTable)
    (h : ∀ r ∈ t.rows, ∀ c ∈ r.2, kindStable c = true) :
    fromCsv (toCsv t) = some t := by
  show ((t.rows.map fun r => renderNat r.1 :: r.2.map renderCVal).mapM
      parseRow).map (fun rs => CTable.mk t.colNames rs) = some t
  rw [mapM_option_map_id parseRow _ t.rows fun r hr => parseRow_renderRow r (h r hr)]
  rfl

/-- Witness for C8 on a concrete two-column table holding an integer, a
text cell, a Missing cell and the integer 0. -/
theorem C8_csv_round_trip_witness :
    fromCsv (toCsv ⟨[['a'], ['b']],
        [(1, [CVal.nat 3, CVal.txt ['x']]), (2, [CVal.missing, CVal.nat 0])]⟩)
      = some ⟨[['a'], ['b']],
        [(1, [CVal.nat 3, CVal.txt ['x']]), (2, [CVal.missing, CVal.nat 0])]⟩ :=
  C8_csv_round_trip _ (by decide)

/-- Modelled from the spec: a Labeled Table in columnar form — a row
Label Sequence shared by every column, and an ordered mapping from
column label to column vector. -/
structure DTable where
  index : List Nat
  cols : List (String × List Cell)
deriving DecidableEq

/-- The structural invariant: every column vector's length equals the row
Label Sequence's length. -/
def DTable.WF (t : DTable) : Prop :=
  ∀ c ∈ t.cols, c.2.length = t.index.length

/-- Replace an existing column, or append a new one, in the ordered
column mapping. -/
def setColList (name : String) (xs : List Cell) :
    List (String × List Cell) → List (String × List Cell)
  | [] => [(name, xs)]
  | c :: cs => if c.1 = name then (name, xs) :: cs else c :: setColList name xs cs

/-- Modelled from the spec: assigning a plain (unlabeled) sequence into a
column (`data[name] = values`): a length differing from the row Label
Sequence's is a Shape-Mismatch error, surfaced immediately with no
partial application; otherwise the column is replaced or appended. -/
def DTable.setCol (t : DTable) (name : String) (xs : List Cell) :
    Except String DTable :=
  if xs.length = t.index.length then
    .ok ⟨t.index, setColList name xs t.cols⟩
  else
    .error "Shape-Mismatch: length of values does not match length of index"

theorem mem_setColList {name : String} {xs : List Cell}
    {cols : List (String × List Cell)} {c : String × List Cell}
    (h : c ∈ setColList name xs cols) : c = (name, xs) ∨ c ∈ cols := by
  induction cols with
  | nil => simpa [setColList] using h
  | cons d ds ih =>
    rw [setColList] at h
    by_cases hd : d.1 = name
    · rw [if_pos hd] at h
      rcases List.mem_cons.mp h with h1 | h2
      · exact Or.inl h1
      · exact Or.inr (List.mem_cons_of_mem d h2)
    · rw [if_neg hd] at h
      rcases List.mem_cons.mp h with h1 | h2
      · exact Or.inr (h1 ▸ List.mem_cons_self d ds)
      · rcases ih h2 with h3 | h4
        · exact Or.inl h3
        · exact Or.inr (List.mem_cons_of_mem d h4)

/-- C9: assigning a plain sequence whose length differs from the row
Label Sequence's signals a Shape-Mismatch error immediately (no table is
produced, so there is no partial application), the assignment succeeds
exactly when the lengths agree, and a successful assignment preserves
the invariant that every column's length equals the row Label
Sequence's length. -/
theorem C9_setCol_shape (t : DTable) (name : String) (xs : List Cell) :
    (xs.length ≠ t.index.length →
      t.setCol name xs =
        .error "Shape-Mismatch: length of values does not match length of index") ∧
    ((∃ t', t.setCol name xs = .ok t') ↔ xs.length = t.index.length) ∧
    (∀ t', t.WF → t.setCol name xs = .ok t' → t'.WF) := by
  refine ⟨?_, ?_, ?_⟩
  · intro hne
    rw [DTable.setCol, if_neg hne]
  · constructor
    · rintro ⟨t', ht'⟩
      by_contra hne
      rw [DTable.setCol, if_neg hne] at ht'
      exact Except.noConfusion ht'
    · intro hlen
      exact ⟨_, by rw [DTable.setCol, if_pos hlen]⟩
  · intro t' hwf hok
    by_cases hlen : xs.length = t.index.length
    · rw [DTable.setCol, if_pos hlen] at hok
      injection hok with hok
      subst hok
      intro c hc
      rcases mem_setColList hc with rfl | hmem
      · exact hlen
      · exact hwf c hmem
    · rw [DTable.setCol, if_neg hlen] at hok
      exact Except.noConfusion hok

/-- Witness for C9 on the notebook's concrete shape: a 4-element plain
sequence assigned into a table with 8 rows errors out, and a matching
8-element assignment into a well-formed table yields a well-formed
table. -/
theorem C9_setCol_shape_witness :
    DTable.setCol ⟨[0, 1, 2, 3, 4, 5, 6, 7], [("value", List.replicate 8 (some 1))]⟩
        "month" (List.replicate 4 (some 1))
      = .error "Shape-Mismatch: length of values does not match length of index" ∧
    DTable.WF ⟨[0, 1, 2, 3, 4, 5, 6, 7],
        setColList "month" (List.replicate 8 (some 2))
          [("value", List.replicate 8 (some 1))]⟩ := by
  constructor
  · exact (C9_setCol_shape ⟨[0, 1, 2, 3, 4, 5, 6, 7],
      [("value", List.replicate 8 (some 1))]⟩ "month"
      (List.replicate 4 (some 1))).1 (by decide)
  · exact (C9_setCol_shape ⟨[0, 1, 2, 3, 4, 5, 6, 7],
      [("value", List.replicate 8 (some 1))]⟩ "month"
      (List.replicate 8 (some 2))).2.2 _
      (by intro c hc; rcases List.mem_singleton.mp hc with rfl; decide)
      (by rw [DTable.setCol, if_pos (by decide)])

/-- Modelled from the spec: a Labeled Table as a positional grid with row
and column Label Sequences (`where` and `mask` act purely elementwise and
keep the shape). -/
structure GTable where
  rowLabels : List Nat
  colLabels : List Nat
  cells : List (List Cell)
deriving DecidableEq

/-- One cell of `where`: keep the value when it satisfies the predicate
(a Missing cell never does), otherwise the replacement `other`
(Missing when no `other` is supplied). -/
def whereCell (p : Int → Bool) (other : Cell) : Cell → Cell
  | some v => if p v then some v else other
  | none => other

/-- Modelled from the spec: `DataFrame.where` — elementwise on the grid,
retaining the index of the original table so that the shape does not
change. -/
def GTable.whereT (t : GTable) (p : Int → Bool) (other : Cell) : GTable :=
  ⟨t.rowLabels, t.colLabels, t.cells.map (List.map (whereCell p other))⟩

/-- Modelled from the spec: `DataFrame.mask` — the inverse boolean of
`where`. -/
def GTable.maskT (t : GTable) (p : Int → Bool) (other : Cell) : GTable :=
  t.whereT (fun v => !p v) other

theorem getD_map_of_lt {α β : Type} (f : α → β) (l : List α) (i : Nat)
    (d : β) (e : α) (hi : i < l.length) :
    (l.map f).getD i d = f (l.getD i e) := by
  rw [List.getD_eq_getElem (l.map f) d (by simpa using hi),
    List.getD_eq_getElem l e hi, List.getElem_map]

/-- C10: `where(P)` returns a table with exactly the same row and column
Label Sequences and shape as the original; each cell keeps its original
value where `P` holds and carries the replacement (`Missing` when no
`other` is supplied) where `P` fails — in particular a Missing cell
fails `P`; and `mask(P)` equals `where(not P)`. -/
theorem C10_where_mask (t : GTable) (p : Int → Bool) (other : Cell)
    (i j : Nat) :
    ((t.whereT p other).rowLabels = t.rowLabels ∧
      (t.whereT p other).colLabels = t.colLabels ∧
      (t.whereT p other).cells.map List.length = t.cells.map List.length) ∧
    (i < t.cells.length → j < (t.cells.getD i []).length →
      ((t.whereT p other).cells.getD i []).getD j none
        = whereCell p other ((t.cells.getD i []).getD j none)) ∧
    (∀ v, p v = true → whereCell p other (some v) = some v) ∧
    (∀ v, p v = false → whereCell p other (some v) = other) ∧
    (whereCell p other none = other) ∧
    (t.maskT p other = t.whereT (fun v => !p v) other) := by
  refine ⟨⟨rfl, rfl, ?_⟩, ?_, ?_, ?_, rfl, rfl⟩
  · show (t.cells.map (List.map (whereCell p other))).map List.length
      = t.cells.map List.length
    rw [List.map_map]
    exact List.map_congr_left fun r _ => List.length_map r _
  · intro hi hj
    show ((t.cells.map (List.map (whereCell p other))).getD i []).getD j none
      = whereCell p other ((t.cells.getD i []).getD j none)
    rw [getD_map_of_lt (List.map (whereCell p other)) t.cells i [] [] hi]
    exact getD_map_of_lt (whereCell p other) (t.cells.getD i []) j none none hj
  · intro v hv
    rw [whereCell, if_pos hv]
  · intro v hv
    rw [whereCell, if_neg (by rw [hv]; exact Bool.false_ne_true)]

/-- Witness for C10 on a concrete 2×2 grid with predicate `0 < v`: the
Missing cell at position (0, 1) is replaced by the supplied `other`. -/
theorem C10_where_mask_witness :
    ((GTable.whereT ⟨[0, 1], [5, 6], [[some 3, none], [some (-2), some 4]]⟩
        (fun v => decide (0 < v)) (some 99)).cells.getD 0 []).getD 1 none
      = whereCell (fun v => decide (0 < v)) (some 99)
          ((([[some 3, none], [some (-2), some 4]] :
              List (List Cell)).getD 0 []).getD 1 none) :=
  (C10_where_mask ⟨[0, 1], [5, 6], [[some 3, none], [some (-2), some 4]]⟩
      (fun v => decide (0 < v)) (some 99) 0 1).2.1 (by decide) (by decide)
